import Mathlib

/-!
Verification development for the `travl` crate (an AVL-family ordered map with a
configurable imbalance tolerance).

The node layer is translated from `src/core.rs` and the map layer from
`src/map.rs`.  The operations that `src/map.rs` only declares (`find` has a
`todo!()` body, the reordering behind `replace_prop_fn` / `replace_ordering_fn`
is an unfinished `todo!`) and the operations the specification describes but
that are absent from the sources (`insert`, height bookkeeping, rotation
application) are modelled from the specification; each such definition carries a
doc comment starting with `Modelled from the spec:` naming what is missing.
-/

set_option maxHeartbeats 1000000

namespace Travl

/-- `u64::MAX`; heights and the imbalance factor are `u64` in the source. -/
def U64MAX : Nat := 2 ^ 64 - 1

/-- `u64::saturating_add` from the source, on the `Nat` image of `u64` values. -/
def satAdd (a b : Nat) : Nat := min (a + b) U64MAX

/-- Balance factor (`BalanceFactor` in src/core.rs). -/
inductive BalanceFactor where
  /-- Left and right nodes are of same height -/
  | Balanced
  /-- Left node is heavier, but within the allowed imbalance -/
  | LeftHeavy
  /-- Right node is heavier, but within the allowed imbalance -/
  | RightHeavy
  /-- Left node is heavier, outside of the allowed imbalance -/
  | TooLeftHeavy
  /-- Right node is heavier, outside of the allowed imbalance -/
  | TooRightHeavy
deriving DecidableEq, Repr

/-- AVL tree rotation (`AVLRotation` in src/core.rs).  The source declares the
four rotations but contains no code applying them; the application functions
below are modelled from the spec. -/
inductive AVLRotation where
  | Right
  | Left
  | RightLeft
  | LeftRight
deriving DecidableEq, Repr

mutual
/-- Represents an AVL node (`TravlNode` in src/core.rs): a key, a value, a
height (a `u64` in the source, modelled as `Nat`), and optional
parent/left/right links.  The Rust `Option<&'a Self>` link is modelled by the
mutually inductive `OptNode`, which restricts the reference graph to its
well-founded tree part. -/
inductive TravlNode (K V : Type) : Type where
  | mk (key : K) (value : V) (height : Nat)
      (parent : OptNode K V) (left : OptNode K V) (right : OptNode K V)

/-- `Option<&'a TravlNode<'a, K, V>>` from src/core.rs. -/
inductive OptNode (K V : Type) : Type where
  | none
  | some (n : TravlNode K V)
end

variable {K V P : Type}

/-- `TravlNode::key`. -/
def TravlNode.key : TravlNode K V → K
  | .mk k _ _ _ _ _ => k

/-- `TravlNode::value`. -/
def TravlNode.value : TravlNode K V → V
  | .mk _ v _ _ _ _ => v

/-- `TravlNode::height`. -/
def TravlNode.height : TravlNode K V → Nat
  | .mk _ _ h _ _ _ => h

/-- `TravlNode::parent`. -/
def TravlNode.parent : TravlNode K V → OptNode K V
  | .mk _ _ _ p _ _ => p

/-- `TravlNode::left`. -/
def TravlNode.left : TravlNode K V → OptNode K V
  | .mk _ _ _ _ l _ => l

/-- `TravlNode::right`. -/
def TravlNode.right : TravlNode K V → OptNode K V
  | .mk _ _ _ _ _ r => r

/-- `Option::is_some` on a node link. -/
def OptNode.is_some : OptNode K V → Bool
  | .none => false
  | .some _ => true

/-- `opt.map_or(0, TravlNode::height)` as used by `balance_factor`. -/
def OptNode.heightD : OptNode K V → Nat
  | .none => 0
  | .some n => n.height

/-- `TravlNode::new`: key, value, height 0, no links. -/
def TravlNode.new (key : K) (value : V) : TravlNode K V :=
  .mk key value 0 .none .none .none

/-- `TravlNode::has_parent`. -/
def TravlNode.has_parent (n : TravlNode K V) : Bool :=
  n.parent.is_some

/-- `TravlNode::is_internal`: at least one child. -/
def TravlNode.is_internal (n : TravlNode K V) : Bool :=
  n.left.is_some || n.right.is_some

/-- `TravlNode::is_alone`: no parent, no children. -/
def TravlNode.is_alone (n : TravlNode K V) : Bool :=
  !n.has_parent && !n.is_internal

/-- `TravlNode::is_leaf`: height is 0. -/
def TravlNode.is_leaf (n : TravlNode K V) : Bool :=
  n.height == 0

/-- `TravlNode::balance_factor` from src/core.rs: absent children count as
height 0; both "too heavy" checks are exact equalities computed with
`u64::saturating_add`; otherwise the heights are compared. -/
def TravlNode.balance_factor (n : TravlNode K V) (imbalance_factor : Nat) :
    BalanceFactor :=
  let left_height := n.left.heightD
  let right_height := n.right.heightD
  if satAdd right_height (satAdd imbalance_factor 1) = left_height then
    .TooLeftHeavy
  else if satAdd left_height (satAdd imbalance_factor 1) = right_height then
    .TooRightHeavy
  else
    match compare left_height right_height with
    | .eq => .Balanced
    | .gt => .LeftHeavy
    | .lt => .RightHeavy

/-- `TravlNode::link_parent`: `self.parent.replace(parent)`, returning the old
parent; `&mut self` is modelled by returning the updated node alongside. -/
def TravlNode.link_parent (n : TravlNode K V) (parent : TravlNode K V) :
    OptNode K V × TravlNode K V :=
  match n with
  | .mk k v h p l r => (p, .mk k v h (.some parent) l r)

/-- `TravlNode::unlink_parent`: `self.parent.take()`. -/
def TravlNode.unlink_parent (n : TravlNode K V) : OptNode K V × TravlNode K V :=
  match n with
  | .mk k v h p l r => (p, .mk k v h .none l r)

/-- `TravlNode::link_left`: `self.left.replace(left)`. -/
def TravlNode.link_left (n : TravlNode K V) (left : TravlNode K V) :
    OptNode K V × TravlNode K V :=
  match n with
  | .mk k v h p l r => (l, .mk k v h p (.some left) r)

/-- `TravlNode::unlink_left`: `self.left.take()`. -/
def TravlNode.unlink_left (n : TravlNode K V) : OptNode K V × TravlNode K V :=
  match n with
  | .mk k v h p l r => (l, .mk k v h p .none r)

/-- `TravlNode::link_right`: `self.right.replace(right)`. -/
def TravlNode.link_right (n : TravlNode K V) (right : TravlNode K V) :
    OptNode K V × TravlNode K V :=
  match n with
  | .mk k v h p l r => (r, .mk k v h p l (.some right))

/-- `TravlNode::unlink_right`: `self.right.take()`. -/
def TravlNode.unlink_right (n : TravlNode K V) : OptNode K V × TravlNode K V :=
  match n with
  | .mk k v h p l r => (r, .mk k v h p l .none)

/-- `TravlNode::link_children`: each child slot is replaced only when the
corresponding argument is `Some`; `old_left` / `old_right` start as `None` and
are set only by the executed `replace` calls. -/
def TravlNode.link_children (n : TravlNode K V)
    (children : OptNode K V × OptNode K V) :
    (OptNode K V × OptNode K V) × TravlNode K V :=
  match n with
  | .mk k v h p l r =>
    let resLeft : OptNode K V × OptNode K V :=
      match children.1 with
      | .none => (.none, l)
      | .some nl => (l, .some nl)
    let resRight : OptNode K V × OptNode K V :=
      match children.2 with
      | .none => (.none, r)
      | .some nr => (r, .some nr)
    ((resLeft.1, resRight.1), .mk k v h p resLeft.2 resRight.2)

/-- `TravlNode::unlink_children`: `(self.left.take(), self.right.take())`. -/
def TravlNode.unlink_children (n : TravlNode K V) :
    (OptNode K V × OptNode K V) × TravlNode K V :=
  match n with
  | .mk k v h p l r => ((l, r), .mk k v h p .none .none)

mutual
/-- In-order list of the `(key, value)` pairs of a subtree rooted at a node;
this is the "extract all (key, value) pairs via an in-order walk" of spec
section 4.2. -/
def TravlNode.entries : TravlNode K V → List (K × V)
  | .mk k v _ _ l r => l.entries ++ (k, v) :: r.entries

/-- In-order `(key, value)` pairs of an optional subtree. -/
def OptNode.entries : OptNode K V → List (K × V)
  | .none => []
  | .some n => n.entries
end

mutual
/-- In-order listing of the key-to-node index entries of a subtree: the model
of the `HashMap<K, TravlNode>` held by the map (spec section 3: every key in
the index corresponds to exactly one node and the tree spans the index's key
set, so the index is exactly the keyed list of the tree's nodes). -/
def TravlNode.nodes_list : TravlNode K V → List (K × TravlNode K V)
  | .mk k v h p l r => l.nodes_list ++ (k, .mk k v h p l r) :: r.nodes_list

/-- In-order index entries of an optional subtree. -/
def OptNode.nodes_list : OptNode K V → List (K × TravlNode K V)
  | .none => []
  | .some n => n.nodes_list
end

/-- Modelled from the spec: height bookkeeping, absent from src/ (no code in
src/core.rs or src/map.rs ever mutates a node's `height`).  Spec section 3:
`height(n) = 1 + max(height(left), height(right))` when `n` has at least one
child and `height(n) = 0` when it has none, an absent child counting as 0. -/
def TravlNode.update_height : TravlNode K V → TravlNode K V
  | .mk k v _ p l r =>
    .mk k v (if l.is_some || r.is_some then 1 + max l.heightD r.heightD else 0)
      p l r

/-- Modelled from the spec: application of `AVLRotation::Left` (spec section
4.1), absent from src/.  The right child becomes the parent; the heights of
exactly the two restructured nodes are recomputed.  A node without a right
child is returned unchanged (the selection logic never reaches this case). -/
def TravlNode.rotate_left : TravlNode K V → TravlNode K V
  | .mk k v h p l (.some (.mk rk rv rh rp rl rr)) =>
    TravlNode.update_height
      (.mk rk rv rh rp
        (.some (TravlNode.update_height (.mk k v h p l rl))) rr)
  | n => n

/-- Modelled from the spec: application of `AVLRotation::Right` (spec section
4.1), absent from src/; mirror image of `rotate_left`. -/
def TravlNode.rotate_right : TravlNode K V → TravlNode K V
  | .mk k v h p (.some (.mk lk lv lh lp ll lr)) r =>
    TravlNode.update_height
      (.mk lk lv lh lp ll
        (.some (TravlNode.update_height (.mk k v h p lr r))))
  | n => n

/-- Modelled from the spec: rotation selection and application (spec section
4.1), absent from src/ (src/core.rs declares `AVLRotation` but nothing applies
one).  A node classified `TooLeftHeavy` rotates `Right`, or `LeftRight` (left
rotation of the left child first) when the left child is right-heavy; the
mirror image for `TooRightHeavy`; any other classification leaves the node
unchanged. -/
def TravlNode.rebalance (t : Nat) (n : TravlNode K V) : TravlNode K V :=
  match n.balance_factor t with
  | .TooLeftHeavy =>
    match n with
    | .mk k v h p (.some l) r =>
      match l.balance_factor t with
      | .RightHeavy | .TooRightHeavy =>
        TravlNode.rotate_right (.mk k v h p (.some (TravlNode.rotate_left l)) r)
      | _ => TravlNode.rotate_right (.mk k v h p (.some l) r)
    | m => m
  | .TooRightHeavy =>
    match n with
    | .mk k v h p l (.some r) =>
      match r.balance_factor t with
      | .LeftHeavy | .TooLeftHeavy =>
        TravlNode.rotate_left (.mk k v h p l (.some (TravlNode.rotate_right r)))
      | _ => TravlNode.rotate_left (.mk k v h p l (.some r))
    | m => m
  | _ => n

mutual
/-- Modelled from the spec: the tree part of `insert` (spec section 4.2),
absent from src/ (src/map.rs has no insert at all).  Walk from the root
comparing `ordering_fn(prop_fn(current.value), prop_fn(value))`: `Greater`
descends left, otherwise right (on `Equal` the spec fixes no side; right is
chosen), attach as a new leaf, then on the way back up refresh every
ancestor's height and rebalance it (at most one rotation per ancestor). -/
def TravlNode.insert_walk (prop : V → P) (ord : P → P → Ordering) (t : Nat)
    (key : K) (value : V) : TravlNode K V → TravlNode K V
  | .mk nk nv nh np nl nr =>
    match ord (prop nv) (prop value) with
    | .gt =>
      TravlNode.rebalance t (TravlNode.update_height
        (.mk nk nv nh np (.some (OptNode.insert_walk prop ord t key value nl)) nr))
    | _ =>
      TravlNode.rebalance t (TravlNode.update_height
        (.mk nk nv nh np nl (.some (OptNode.insert_walk prop ord t key value nr))))

/-- Modelled from the spec: insertion into an optional subtree; an absent
subtree becomes the new leaf (`TravlNode::new`). -/
def OptNode.insert_walk (prop : V → P) (ord : P → P → Ordering) (t : Nat)
    (key : K) (value : V) : OptNode K V → TravlNode K V
  | .none => TravlNode.new key value
  | .some n => TravlNode.insert_walk prop ord t key value n
end

/-- Modelled from the spec: the `Equality` search walk of `find` (spec section
4.2); the body of `TravlMap::find` in src/map.rs is `todo!()`.  Walk from the
root comparing `ordering_fn(prop_fn(current.value), desired_value)`; an exact
match returns the node, otherwise descend (`Greater` left, `Less` right), and
a missing child ends the walk empty. -/
def OptNode.find_walk (prop : V → P) (ord : P → P → Ordering) (pivot : P) :
    OptNode K V → Option (TravlNode K V)
  | .none => Option.none
  | .some (.mk nk nv nh np nl nr) =>
    match ord (prop nv) pivot with
    | .eq => Option.some (.mk nk nv nh np nl nr)
    | .gt => OptNode.find_walk prop ord pivot nl
    | .lt => OptNode.find_walk prop ord pivot nr

/-- Modelled from the spec: the `NearestToBottom` walk of `find` (spec section
4.2: the largest desired value at most the pivot, empty when no node is on
that side); the body of `TravlMap::find` in src/map.rs is `todo!()`. -/
def OptNode.find_le (prop : V → P) (ord : P → P → Ordering) (pivot : P)
    (best : Option (TravlNode K V)) : OptNode K V → Option (TravlNode K V)
  | .none => best
  | .some (.mk nk nv nh np nl nr) =>
    match ord (prop nv) pivot with
    | .gt => OptNode.find_le prop ord pivot best nl
    | _ => OptNode.find_le prop ord pivot (Option.some (.mk nk nv nh np nl nr)) nr

/-- Modelled from the spec: the `NearestToTop` walk of `find` (spec section
4.2: the smallest desired value at least the pivot); mirror of `find_le`. -/
def OptNode.find_ge (prop : V → P) (ord : P → P → Ordering) (pivot : P)
    (best : Option (TravlNode K V)) : OptNode K V → Option (TravlNode K V)
  | .none => best
  | .some (.mk nk nv nh np nl nr) =>
    match ord (prop nv) pivot with
    | .lt => OptNode.find_ge prop ord pivot best nr
    | _ => OptNode.find_ge prop ord pivot (Option.some (.mk nk nv nh np nl nr)) nl

/-- Modelled from the spec: the `Nearest` walk of `find` (spec section 4.2).
An absolute rank distance is not computable from the ordering function alone,
so following the spec's tie-break sentence ("the node encountered last before
termination") the walk returns an exact match when it hits one and otherwise
the last node visited on the search path. -/
def OptNode.find_nearest (prop : V → P) (ord : P → P → Ordering) (pivot : P)
    (last : Option (TravlNode K V)) : OptNode K V → Option (TravlNode K V)
  | .none => last
  | .some (.mk nk nv nh np nl nr) =>
    match ord (prop nv) pivot with
    | .eq => Option.some (.mk nk nv nh np nl nr)
    | .gt => OptNode.find_nearest prop ord pivot (Option.some (.mk nk nv nh np nl nr)) nl
    | .lt => OptNode.find_nearest prop ord pivot (Option.some (.mk nk nv nh np nl nr)) nr

/-- Search type when searching for a value in the tree (`SearchType` in
src/map.rs). -/
inductive SearchType where
  /-- Strict value equality -/
  | Equality
  /-- Returns nearest value (rounding) -/
  | Nearest
  /-- Returns nearest value from the bottom (rounding down) -/
  | NearestToBottom
  /-- Returns nearest value from the top (rounding up) -/
  | NearestToTop
deriving DecidableEq, Repr

/-- Modelled from the spec: the error taxonomy of spec section 7 (src/ has no
error type; `insert` and `remove`, whose results carry these, are absent from
src/map.rs). -/
inductive TravlError where
  | DuplicateKey
  | KeyNotFound
  | NoMatch
deriving DecidableEq, Repr

/-- Map similar to `BTreeMap` (`TravlMap` in src/map.rs).  The Rust struct
holds `imbalance_factor`, `root_key`, a `HashMap<K, TravlNode>` and reference
links between the stored nodes; by the spec section 3 invariant the tree
reachable from `root_key` through child links spans exactly the index's key
set and parent links are determined by the child links, so the model collapses
root key, index and linkage into the rooted tree `root` (`root_key` and the
index are recovered by the functions below, and parent links are left
untracked).  `prop_fn` and `ordering_fn` are the injected property getter and
ordering function. -/
structure TravlMap (K V P : Type) where
  imbalance_factor : Nat
  root : OptNode K V
  prop_fn : V → P
  ordering_fn : P → P → Ordering

/-- `TravlMap::root_key`. -/
def TravlMap.root_key (m : TravlMap K V P) : Option K :=
  match m.root with
  | .none => Option.none
  | .some n => Option.some n.key

/-- `TravlMap::nodes`: the key-to-node index (the `HashMap` of the source,
modelled as its in-order key-to-node listing). -/
def TravlMap.nodes (m : TravlMap K V P) : List (K × TravlNode K V) :=
  m.root.nodes_list

/-- `TravlMap::contains_key`: `self.nodes.contains_key(key)`. -/
def TravlMap.contains_key [DecidableEq K] (m : TravlMap K V P) (key : K) : Bool :=
  m.nodes.any (fun kv => kv.1 == key)

/-- `TravlMap::get`: `self.nodes.get(key)`. -/
def TravlMap.get [DecidableEq K] (m : TravlMap K V P) (key : K) :
    Option (TravlNode K V) :=
  (m.nodes.find? (fun kv => kv.1 == key)).map Prod.snd

/-- `TravlMap::get_mut`: `self.nodes.get_mut(key)`; mutable access has the
same hit-or-miss behaviour as `get`. -/
def TravlMap.get_mut [DecidableEq K] (m : TravlMap K V P) (key : K) :
    Option (TravlNode K V) :=
  (m.nodes.find? (fun kv => kv.1 == key)).map Prod.snd

/-- `TravlMap::is_empty`: `self.nodes.is_empty()`. -/
def TravlMap.is_empty (m : TravlMap K V P) : Bool :=
  m.nodes.isEmpty

/-- `TravlMap::len`: `self.nodes.len()`. -/
def TravlMap.len (m : TravlMap K V P) : Nat :=
  m.nodes.length

/-- `TravlMap::find` (its body in src/map.rs is `todo!()`; the walks are
modelled from spec sections 4.2 and 4.3). -/
def TravlMap.find (m : TravlMap K V P) (val : P) (search_type : SearchType) :
    Option (TravlNode K V) :=
  match search_type with
  | .Equality => m.root.find_walk m.prop_fn m.ordering_fn val
  | .Nearest => m.root.find_nearest m.prop_fn m.ordering_fn val Option.none
  | .NearestToBottom => m.root.find_le m.prop_fn m.ordering_fn val Option.none
  | .NearestToTop => m.root.find_ge m.prop_fn m.ordering_fn val Option.none

/-- `impl Default for TravlMap` from src/map.rs: imbalance factor 0, empty
index, no root, identity property getter, `Ord::cmp` as the ordering.  Rust's
`V: Ord` bound is modelled as a `LinearOrder` and `Ord::cmp` as its `compare`. -/
def TravlMap.default (K V : Type) [LinearOrder V] : TravlMap K V V :=
  { imbalance_factor := 0
    root := .none
    prop_fn := fun x => x
    ordering_fn := fun a b => compare a b }

/-- `TravlMap::new`: `Self::default()`. -/
def TravlMap.new (K V : Type) [LinearOrder V] : TravlMap K V V :=
  TravlMap.default K V

/-- `TravlMap::new_with_ordering`: custom ordering function, identity property
getter. -/
def TravlMap.new_with_ordering (K : Type) {V : Type}
    (ordering_fn : V → V → Ordering) : TravlMap K V V :=
  { imbalance_factor := 0
    root := .none
    prop_fn := fun x => x
    ordering_fn := ordering_fn }

/-- `TravlMap::new_with_prop_getter`: custom property getter, `Ord::cmp`
(modelled as `compare`) on the derived property. -/
def TravlMap.new_with_prop_getter (K : Type) {V P : Type} [LinearOrder P]
    (prop_fn : V → P) : TravlMap K V P :=
  { imbalance_factor := 0
    root := .none
    prop_fn := prop_fn
    ordering_fn := fun a b => compare a b }

/-- `TravlMap::new_with_prop_getter_and_ordering`: fully custom. -/
def TravlMap.new_with_prop_getter_and_ordering (K : Type) {V P : Type}
    (prop_fn : V → P) (ordering_fn : P → P → Ordering) : TravlMap K V P :=
  { imbalance_factor := 0
    root := .none
    prop_fn := prop_fn
    ordering_fn := ordering_fn }

/-- Modelled from the spec: `TravlMap::insert` (spec sections 4.2 and 9),
absent from src/map.rs.  Inserting an existing key fails with `DuplicateKey`
and leaves the map untouched; otherwise the value is attached by the ordering
walk and the ancestors are rebalanced.  The Rust `&mut self` method is
modelled by returning the resulting map alongside the status. -/
def TravlMap.insert [DecidableEq K] (m : TravlMap K V P) (key : K) (value : V) :
    Except TravlError Unit × TravlMap K V P :=
  if m.contains_key key then
    (.error .DuplicateKey, m)
  else
    (.ok (),
      { m with
        root :=
          .some (m.root.insert_walk m.prop_fn m.ordering_fn m.imbalance_factor
            key value) })

/-- Modelled from the spec: the full reorder behind `replace_prop_fn` /
`replace_ordering_fn` (spec section 4.2), left as `todo!("Trigger reordering")`
in src/map.rs: extract all `(key, value)` pairs via an in-order walk, clear
the tree, and reinsert every pair under the current configuration. -/
def TravlMap.reorder [DecidableEq K] (m : TravlMap K V P) : TravlMap K V P :=
  let pairs := m.root.entries
  pairs.foldl (fun acc kv => (acc.insert kv.1 kv.2).2) { m with root := .none }

/-- `TravlMap::replace_prop_fn`: install the new property getter (this part is
in src/map.rs), then reorder (modelled from the spec; the source leaves it as
`todo!`). -/
def TravlMap.replace_prop_fn [DecidableEq K] (m : TravlMap K V P)
    (prop_fn : V → P) : TravlMap K V P :=
  TravlMap.reorder { m with prop_fn := prop_fn }

/-- `TravlMap::replace_ordering_fn`: install the new ordering function (this
part is in src/map.rs), then reorder (modelled from the spec; the source
leaves it as `todo!`). -/
def TravlMap.replace_ordering_fn [DecidableEq K] (m : TravlMap K V P)
    (ordering_fn : P → P → Ordering) : TravlMap K V P :=
  TravlMap.reorder { m with ordering_fn := ordering_fn }

mutual
/-- Search-ordering invariant of the tree (spec sections 3 and 8: an in-order
traversal yields desired values in non-decreasing order per the ordering
function): every entry in the left subtree has desired value at most the
node's, every entry in the right subtree has desired value at least the
node's, recursively. -/
def TravlNode.WBST [LinearOrder P] (prop : V → P) : TravlNode K V → Prop
  | .mk _ v _ _ l r =>
    (∀ kv ∈ l.entries, prop kv.2 ≤ prop v) ∧
    (∀ kv ∈ r.entries, prop v ≤ prop kv.2) ∧
    l.WBST prop ∧ r.WBST prop

/-- Search-ordering invariant of an optional subtree. -/
def OptNode.WBST [LinearOrder P] (prop : V → P) : OptNode K V → Prop
  | .none => True
  | .some n => n.WBST prop
end

/-- Concrete node for settling C1: left child of height `u64::MAX`, no right
child. -/
def c1Node : TravlNode Nat Nat :=
  .mk 0 0 0 .none (.some (.mk 0 0 U64MAX .none .none .none)) .none

/-- Concrete node for the C1 witness: left child of height 1, no right child. -/
def c1SmallNode : TravlNode Nat Nat :=
  .mk 0 0 2 .none (.some (.mk 1 1 1 .none .none .none)) .none

/-- Concrete node for the C2 witness: left child a leaf, right child a node of
height 2. -/
def c2Node : TravlNode Nat Nat :=
  .mk 0 0 3 .none (.some (.mk 1 1 0 .none .none .none))
    (.some (.mk 2 2 2 .none .none .none))

/-- Freshly constructed map over naturals (keys, values and properties all
`Nat`). -/
def exEmptyMap : TravlMap Nat Nat Nat := TravlMap.new Nat Nat

/-- Map obtained by inserting keys 1, 2, 3, 4 (values equal to keys) into a
fresh natural-ordered map; the concrete input on which C3 is settled. -/
def c3Map : TravlMap Nat Nat Nat :=
  [(1, 1), (2, 2), (3, 3), (4, 4)].foldl
    (fun acc kv => (acc.insert kv.1 kv.2).2) exEmptyMap

/-- Map with a non-injective property getter (`v / 2`) holding value 2 under
key 1; the concrete input on which C4's round-trip sentence is settled (the
values 2 and 3 share the desired value 1). -/
def c4Map : TravlMap Nat Nat Nat :=
  ((TravlMap.new_with_prop_getter Nat (fun v => v / 2)).insert 1 2).2

/-- Two-entry map used by the C5 witness. -/
def c5Map : TravlMap Nat Nat Nat :=
  ((exEmptyMap.insert 1 10).2.insert 2 20).2

/-- One-entry map (key 1) used by the C6 witness. -/
def c6Map : TravlMap Nat Nat Nat := (exEmptyMap.insert 1 10).2

/-- Saturating addition is plain addition below the saturation bound. -/
theorem satAdd_of_le {a b : Nat} (h : a + b ≤ U64MAX) : satAdd a b = a + b :=
  Nat.min_eq_left h

/-- Structural induction over optional subtrees (the parent link is carried
but not recursed into). -/
theorem OptNode.inductionOn {motive : OptNode K V → Prop}
    (hnone : motive .none)
    (hmk : ∀ (k : K) (v : V) (h : Nat) (p l r : OptNode K V),
      motive l → motive r → motive (.some (.mk k v h p l r)))
    (t : OptNode K V) : motive t :=
  match t with
  | .none => hnone
  | .some (.mk k v h p l r) =>
    hmk k v h p l r (OptNode.inductionOn hnone hmk l)
      (OptNode.inductionOn hnone hmk r)

/-- Refreshing a node's height does not change its in-order entries. -/
theorem TravlNode.entries_update_height (n : TravlNode K V) :
    n.update_height.entries = n.entries := by
  cases n; rfl

/-- Refreshing a node's height preserves the search-ordering invariant. -/
theorem TravlNode.WBST_update_height [LinearOrder P] (prop : V → P)
    (n : TravlNode K V) (h : n.WBST prop) : n.update_height.WBST prop := by
  cases n; exact h

/-- A left rotation preserves the in-order entries exactly. -/
theorem TravlNode.entries_rotate_left (n : TravlNode K V) :
    n.rotate_left.entries = n.entries := by
  cases n with
  | mk k v h p l r =>
    cases r with
    | none => rfl
    | some rn =>
      cases rn with
      | mk rk rv rh rp rl rr =>
        simp [TravlNode.rotate_left, TravlNode.update_height, TravlNode.entries,
          OptNode.entries, List.append_assoc]

/-- A right rotation preserves the in-order entries exactly. -/
theorem TravlNode.entries_rotate_right (n : TravlNode K V) :
    n.rotate_right.entries = n.entries := by
  cases n with
  | mk k v h p l r =>
    cases l with
    | none => rfl
    | some ln =>
      cases ln with
      | mk lk lv lh lp ll lr =>
        simp [TravlNode.rotate_right, TravlNode.update_height, TravlNode.entries,
          OptNode.entries, List.append_assoc]

/-- A left rotation preserves the search-ordering invariant. -/
theorem TravlNode.WBST_rotate_left [LinearOrder P] (prop : V → P)
    (n : TravlNode K V) (hw : n.WBST prop) : n.rotate_left.WBST prop := by
  cases n with
  | mk k v h p l r =>
    cases r with
    | none => exact hw
    | some rn =>
      cases rn with
      | mk rk rv rh rp rl rr =>
        obtain ⟨h1, h2, h3, h4⟩ := hw
        obtain ⟨h4a, h4b, h4c, h4d⟩ := h4
        have hvrv : prop v ≤ prop rv :=
          h2 (rk, rv) (by simp [OptNode.entries, TravlNode.entries])
        simp only [TravlNode.rotate_left, TravlNode.update_height]
        refine ⟨?_, h4b, ?_, h4d⟩
        · intro kv hkv
          simp only [OptNode.entries, TravlNode.entries, List.mem_append,
            List.mem_cons] at hkv
          rcases hkv with hkv | hkv | hkv
          · exact le_trans (h1 kv hkv) hvrv
          · subst hkv; exact hvrv
          · exact h4a kv hkv
        · refine ⟨h1, ?_, h3, h4c⟩
          intro kv hkv
          exact h2 kv
            (by simp only [OptNode.entries, TravlNode.entries, List.mem_append]
                exact Or.inl hkv)

/-- A right rotation preserves the search-ordering invariant. -/
theorem TravlNode.WBST_rotate_right [LinearOrder P] (prop : V → P)
    (n : TravlNode K V) (hw : n.WBST prop) : n.rotate_right.WBST prop := by
  cases n with
  | mk k v h p l r =>
    cases l with
    | none => exact hw
    | some ln =>
      cases ln with
      | mk lk lv lh lp ll lr =>
        obtain ⟨h1, h2, h3, h4⟩ := hw
        obtain ⟨h3a, h3b, h3c, h3d⟩ := h3
        have hlvv : prop lv ≤ prop v :=
          h1 (lk, lv) (by simp [OptNode.entries, TravlNode.entries])
        simp only [TravlNode.rotate_right, TravlNode.update_height]
        refine ⟨h3a, ?_, h3c, ?_⟩
        · intro kv hkv
          simp only [OptNode.entries, TravlNode.entries, List.mem_append,
            List.mem_cons] at hkv
          rcases hkv with hkv | hkv | hkv
          · exact h3b kv hkv
          · subst hkv; exact hlvv
          · exact le_trans hlvv (h2 kv hkv)
        · refine ⟨?_, h2, h3d, h4⟩
          intro kv hkv
          exact h1 kv
            (by simp only [OptNode.entries, TravlNode.entries, List.mem_append,
                  List.mem_cons]
                exact Or.inr (Or.inr hkv))

/-- Rebalancing a node preserves the in-order entries exactly. -/
theorem TravlNode.entries_rebalance (t : Nat) (n : TravlNode K V) :
    (n.rebalance t).entries = n.entries := by
  unfold TravlNode.rebalance
  split
  · split
    · split
      · rw [TravlNode.entries_rotate_right]
        simp [TravlNode.entries, OptNode.entries, TravlNode.entries_rotate_left]
      · rw [TravlNode.entries_rotate_right]
        simp [TravlNode.entries, OptNode.entries, TravlNode.entries_rotate_left]
      · rw [TravlNode.entries_rotate_right]
    · rfl
  · split
    · split
      · rw [TravlNode.entries_rotate_left]
        simp [TravlNode.entries, OptNode.entries, TravlNode.entries_rotate_right]
      · rw [TravlNode.entries_rotate_left]
        simp [TravlNode.entries, OptNode.entries, TravlNode.entries_rotate_right]
      · rw [TravlNode.entries_rotate_left]
    · rfl
  · rfl

/-- Rebalancing a node preserves the search-ordering invariant. -/
theorem TravlNode.WBST_rebalance [LinearOrder P] (prop : V → P) (t : Nat)
    (n : TravlNode K V) (hw : n.WBST prop) : (n.rebalance t).WBST prop := by
  unfold TravlNode.rebalance
  split
  · split
    · obtain ⟨h1, h2, h3, h4⟩ := hw
      split
      · apply TravlNode.WBST_rotate_right
        refine ⟨?_, h2, TravlNode.WBST_rotate_left prop _ h3, h4⟩
        intro kv hkv
        rw [show (OptNode.some (TravlNode.rotate_left _)).entries
              = (TravlNode.rotate_left _).entries from rfl,
            TravlNode.entries_rotate_left] at hkv
        exact h1 kv hkv
      · apply TravlNode.WBST_rotate_right
        refine ⟨?_, h2, TravlNode.WBST_rotate_left prop _ h3, h4⟩
        intro kv hkv
        rw [show (OptNode.some (TravlNode.rotate_left _)).entries
              = (TravlNode.rotate_left _).entries from rfl,
            TravlNode.entries_rotate_left] at hkv
        exact h1 kv hkv
      · exact TravlNode.WBST_rotate_right prop _ ⟨h1, h2, h3, h4⟩
    · exact hw
  · split
    · obtain ⟨h1, h2, h3, h4⟩ := hw
      split
      · apply TravlNode.WBST_rotate_left
        refine ⟨h1, ?_, h3, TravlNode.WBST_rotate_right prop _ h4⟩
        intro kv hkv
        rw [show (OptNode.some (TravlNode.rotate_right _)).entries
              = (TravlNode.rotate_right _).entries from rfl,
            TravlNode.entries_rotate_right] at hkv
        exact h2 kv hkv
      · apply TravlNode.WBST_rotate_left
        refine ⟨h1, ?_, h3, TravlNode.WBST_rotate_right prop _ h4⟩
        intro kv hkv
        rw [show (OptNode.some (TravlNode.rotate_right _)).entries
              = (TravlNode.rotate_right _).entries from rfl,
            TravlNode.entries_rotate_right] at hkv
        exact h2 kv hkv
      · exact TravlNode.WBST_rotate_left prop _ ⟨h1, h2, h3, h4⟩
    · exact hw
  · exact hw

/-- Inserting into an optional subtree produces the old entries plus the new
pair, up to permutation. -/
theorem OptNode.entries_insert_walk (prop : V → P) (ord : P → P → Ordering)
    (t : Nat) (key : K) (value : V) (o : OptNode K V) :
    List.Perm (o.insert_walk prop ord t key value).entries
      ((key, value) :: o.entries) := by
  induction o using OptNode.inductionOn with
  | hnone =>
    simp [OptNode.insert_walk, TravlNode.new, TravlNode.entries,
      OptNode.entries]
  | hmk k v h p l r ihl ihr =>
    show List.Perm (TravlNode.insert_walk prop ord t key value
      (.mk k v h p l r)).entries _
    rw [TravlNode.insert_walk]
    cases hc : ord (prop v) (prop value)
    · simp only
      rw [TravlNode.entries_rebalance, TravlNode.entries_update_height]
      simp only [TravlNode.entries, OptNode.entries]
      exact (List.Perm.append_left _ (ihr.cons (k, v))).trans
        ((List.Perm.append_left _ (List.Perm.swap _ _ _)).trans
          List.perm_middle)
    · simp only
      rw [TravlNode.entries_rebalance, TravlNode.entries_update_height]
      simp only [TravlNode.entries, OptNode.entries]
      exact (List.Perm.append_left _ (ihr.cons (k, v))).trans
        ((List.Perm.append_left _ (List.Perm.swap _ _ _)).trans
          List.perm_middle)
    · simp only
      rw [TravlNode.entries_rebalance, TravlNode.entries_update_height]
      simp only [TravlNode.entries, OptNode.entries]
      exact (ihl.append_right _).trans (List.Perm.refl _)

/-- Inserting with a lawful comparison preserves the search-ordering
invariant. -/
theorem OptNode.WBST_insert_walk [LinearOrder P] (prop : V → P) (t : Nat)
    (key : K) (value : V) (o : OptNode K V) :
    o.WBST prop →
    (o.insert_walk prop (fun a b => compare a b) t key value).WBST prop := by
  induction o using OptNode.inductionOn with
  | hnone =>
    intro _
    exact ⟨by simp [OptNode.entries], by simp [OptNode.entries], trivial,
      trivial⟩
  | hmk k v h p l r ihl ihr =>
    intro hw
    obtain ⟨h1, h2, h3, h4⟩ := hw
    show (TravlNode.insert_walk prop _ t key value (.mk k v h p l r)).WBST prop
    rw [TravlNode.insert_walk]
    cases hc : compare (prop v) (prop value)
    · have hlt : prop v < prop value := compare_lt_iff_lt.mp hc
      simp only
      apply TravlNode.WBST_rebalance
      apply TravlNode.WBST_update_height
      refine ⟨h1, ?_, h3, ihr h4⟩
      intro kv hkv
      rw [show (OptNode.some (OptNode.insert_walk prop _ t key value r)).entries
            = (OptNode.insert_walk prop _ t key value r).entries from rfl] at hkv
      rcases List.mem_cons.mp
          ((OptNode.entries_insert_walk prop _ t key value r).mem_iff.mp hkv)
        with hm | hm
      · rw [hm]; exact le_of_lt hlt
      · exact h2 kv hm
    · have heq : prop v = prop value := compare_eq_iff_eq.mp hc
      simp only
      apply TravlNode.WBST_rebalance
      apply TravlNode.WBST_update_height
      refine ⟨h1, ?_, h3, ihr h4⟩
      intro kv hkv
      rw [show (OptNode.some (OptNode.insert_walk prop _ t key value r)).entries
            = (OptNode.insert_walk prop _ t key value r).entries from rfl] at hkv
      rcases List.mem_cons.mp
          ((OptNode.entries_insert_walk prop _ t key value r).mem_iff.mp hkv)
        with hm | hm
      · rw [hm]; exact le_of_eq heq
      · exact h2 kv hm
    · have hgt : prop value < prop v := compare_gt_iff_gt.mp hc
      simp only
      apply TravlNode.WBST_rebalance
      apply TravlNode.WBST_update_height
      refine ⟨?_, h2, ihl h3, h4⟩
      intro kv hkv
      rw [show (OptNode.some (OptNode.insert_walk prop _ t key value l)).entries
            = (OptNode.insert_walk prop _ t key value l).entries from rfl] at hkv
      rcases List.mem_cons.mp
          ((OptNode.entries_insert_walk prop _ t key value l).mem_iff.mp hkv)
        with hm | hm
      · rw [hm]; exact le_of_lt hgt
      · exact h1 kv hm

/-- The `Equality` walk only ever returns a node of the tree whose desired
value compares `Equal` to the pivot. -/
theorem OptNode.find_walk_sound (prop : V → P) (ord : P → P → Ordering)
    (pivot : P) (o : OptNode K V) :
    ∀ n, o.find_walk prop ord pivot = Option.some n →
      (n.key, n.value) ∈ o.entries ∧ ord (prop n.value) pivot = .eq := by
  induction o using OptNode.inductionOn with
  | hnone => intro n hn; simp [OptNode.find_walk] at hn
  | hmk k v h p l r ihl ihr =>
    intro n hn
    rw [OptNode.find_walk] at hn
    cases hc : ord (prop v) pivot <;> simp only [hc] at hn
    · obtain ⟨hmem, hq⟩ := ihr n hn
      exact ⟨by
        simp only [OptNode.entries, TravlNode.entries, List.mem_append,
          List.mem_cons]
        exact Or.inr (Or.inr hmem), hq⟩
    · cases hn
      exact ⟨by
        simp only [OptNode.entries, TravlNode.entries, List.mem_append,
          List.mem_cons]
        exact Or.inr (Or.inl rfl), hc⟩
    · obtain ⟨hmem, hq⟩ := ihl n hn
      exact ⟨by
        simp only [OptNode.entries, TravlNode.entries, List.mem_append,
          List.mem_cons]
        exact Or.inl hmem, hq⟩

/-- Under the search-ordering invariant and a lawful comparison, the
`Equality` walk finds a node whenever some entry has the pivot as its desired
value. -/
theorem OptNode.find_walk_complete [LinearOrder P] (prop : V → P) (pivot : P)
    (o : OptNode K V) :
    o.WBST prop → ∀ kv ∈ o.entries, prop kv.2 = pivot →
    ∃ n, o.find_walk prop (fun a b => compare a b) pivot = Option.some n ∧
      prop n.value = pivot := by
  induction o using OptNode.inductionOn with
  | hnone => intro _ kv hkv; simp [OptNode.entries] at hkv
  | hmk k v h p l r ihl ihr =>
    intro hw kv hkv hpk
    obtain ⟨h1, h2, h3, h4⟩ := hw
    simp only [OptNode.entries, TravlNode.entries, List.mem_append,
      List.mem_cons] at hkv
    rw [OptNode.find_walk]
    cases hc : compare (prop v) pivot <;> simp only
    · have hlt := compare_lt_iff_lt.mp hc
      rcases hkv with hkv | hkv | hkv
      · have hle : pivot ≤ prop v := hpk ▸ h1 kv hkv
        exact absurd hlt (not_lt.mpr hle)
      · rw [hkv] at hpk
        exact absurd hpk (ne_of_lt hlt)
      · exact ihr h4 kv hkv hpk
    · exact ⟨.mk k v h p l r, rfl, compare_eq_iff_eq.mp hc⟩
    · have hgt := compare_gt_iff_gt.mp hc
      rcases hkv with hkv | hkv | hkv
      · exact ihl h3 kv hkv hpk
      · rw [hkv] at hpk
        exact absurd hpk.symm (ne_of_lt hgt)
      · have hle : prop v ≤ pivot := hpk ▸ h2 kv hkv
        exact absurd hgt (not_lt.mpr hle)

/-- The key-to-node index and the in-order entries list the same keys in the
same order. -/
theorem OptNode.nodes_list_keys (o : OptNode K V) :
    o.nodes_list.map Prod.fst = o.entries.map Prod.fst := by
  induction o using OptNode.inductionOn with
  | hnone => rfl
  | hmk k v h p l r ihl ihr =>
    simp [OptNode.nodes_list, TravlNode.nodes_list, OptNode.entries,
      TravlNode.entries, ihl, ihr]

/-- `contains_key` answers membership of the key in the index. -/
theorem TravlMap.contains_key_iff_mem [DecidableEq K] (m : TravlMap K V P)
    (k : K) : m.contains_key k = true ↔ k ∈ m.nodes.map Prod.fst := by
  simp [TravlMap.contains_key, List.any_eq_true, List.mem_map]

/-- `get` hits exactly when the key is in the index. -/
theorem TravlMap.get_isSome_iff [DecidableEq K] (m : TravlMap K V P) (k : K) :
    (m.get k).isSome = true ↔ k ∈ m.nodes.map Prod.fst := by
  simp [TravlMap.get, List.find?_isSome, List.mem_map]

/-- Inserting an existing key changes nothing; the interesting case is below. -/
theorem TravlMap.insert_config [DecidableEq K] (m : TravlMap K V P) (k : K)
    (v : V) :
    (m.insert k v).2.prop_fn = m.prop_fn ∧
    (m.insert k v).2.ordering_fn = m.ordering_fn ∧
    (m.insert k v).2.imbalance_factor = m.imbalance_factor := by
  unfold TravlMap.insert
  split <;> exact ⟨rfl, rfl, rfl⟩

/-- A fresh-key insert succeeds and adds exactly the new pair to the entries. -/
theorem TravlMap.insert_entries [DecidableEq K] (m : TravlMap K V P) (k : K)
    (v : V) (hk : m.contains_key k = false) :
    (m.insert k v).1 = .ok () ∧
    List.Perm (m.insert k v).2.root.entries ((k, v) :: m.root.entries) := by
  unfold TravlMap.insert
  rw [hk]
  exact ⟨rfl, OptNode.entries_insert_walk _ _ _ _ _ _⟩

/-- A fresh-key insert adds exactly the new key to the index keys. -/
theorem TravlMap.insert_keys [DecidableEq K] (m : TravlMap K V P) (k : K)
    (v : V) (hk : m.contains_key k = false) :
    List.Perm ((m.insert k v).2.nodes.map Prod.fst)
      (k :: m.nodes.map Prod.fst) := by
  have h := (TravlMap.insert_entries m k v hk).2
  have h2 := h.map Prod.fst
  rw [show ((k, v) :: m.root.entries).map Prod.fst
        = k :: m.root.entries.map Prod.fst from rfl] at h2
  rw [TravlMap.nodes, TravlMap.nodes, OptNode.nodes_list_keys,
    OptNode.nodes_list_keys]
  exact h2

/-- Insertion preserves the search-ordering invariant (for a lawful ordering
function). -/
theorem TravlMap.insert_WBST [LinearOrder P] [DecidableEq K]
    (m : TravlMap K V P) (k : K) (v : V)
    (hord : m.ordering_fn = fun a b => compare a b)
    (hw : m.root.WBST m.prop_fn) :
    (m.insert k v).2.root.WBST (m.insert k v).2.prop_fn := by
  unfold TravlMap.insert
  split
  · exact hw
  · rw [hord]
    exact OptNode.WBST_insert_walk m.prop_fn m.imbalance_factor k v m.root hw

/-- Folding fresh-key inserts over a list of pairs yields exactly those pairs
on top of the accumulator, and keeps the configuration. -/
theorem TravlMap.fold_insert_entries [DecidableEq K] (pairs : List (K × V)) :
    ∀ acc : TravlMap K V P,
    (pairs.map Prod.fst).Nodup →
    (∀ q ∈ pairs, acc.contains_key q.1 = false) →
    List.Perm
      ((pairs.foldl (fun a kv => (a.insert kv.1 kv.2).2) acc).root.entries)
      (pairs ++ acc.root.entries) := by
  induction pairs with
  | nil => intro acc _ _; exact List.Perm.refl _
  | cons q rest ih =>
    intro acc hnd hdisj
    simp only [List.foldl_cons]
    have hq : acc.contains_key q.1 = false := hdisj q (List.mem_cons_self q rest)
    have hins := (TravlMap.insert_entries acc q.1 q.2 hq).2
    have hkeys := TravlMap.insert_keys acc q.1 q.2 hq
    rw [List.map_cons, List.nodup_cons] at hnd
    have hdisj2 : ∀ x ∈ rest, (acc.insert q.1 q.2).2.contains_key x.1 = false := by
      intro x hx
      cases hcc : (acc.insert q.1 q.2).2.contains_key x.1
      · rfl
      · exfalso
        have hmem := (TravlMap.contains_key_iff_mem _ x.1).mp hcc
        rcases List.mem_cons.mp (hkeys.mem_iff.mp hmem) with he | he
        · exact hnd.1 (he ▸ List.mem_map_of_mem Prod.fst hx)
        · have hc2 := (TravlMap.contains_key_iff_mem acc x.1).mpr he
          rw [hdisj x (List.mem_cons_of_mem q hx)] at hc2
          exact Bool.false_ne_true hc2
    have hrest := ih ((acc.insert q.1 q.2).2) hnd.2 hdisj2
    exact hrest.trans ((List.Perm.append_left rest hins).trans List.perm_middle)

/-- Folding inserts preserves the configuration functions. -/
theorem TravlMap.fold_insert_config [DecidableEq K] (pairs : List (K × V)) :
    ∀ acc : TravlMap K V P,
    (pairs.foldl (fun a kv => (a.insert kv.1 kv.2).2) acc).prop_fn = acc.prop_fn ∧
    (pairs.foldl (fun a kv => (a.insert kv.1 kv.2).2) acc).ordering_fn
      = acc.ordering_fn := by
  induction pairs with
  | nil => intro acc; exact ⟨rfl, rfl⟩
  | cons q rest ih =>
    intro acc
    simp only [List.foldl_cons]
    have h := TravlMap.insert_config acc q.1 q.2
    have h2 := ih ((acc.insert q.1 q.2).2)
    exact ⟨h2.1.trans h.1, h2.2.trans h.2.1⟩

/-- Folding inserts preserves the search-ordering invariant. -/
theorem TravlMap.fold_insert_WBST [LinearOrder P] [DecidableEq K]
    (pairs : List (K × V)) :
    ∀ acc : TravlMap K V P,
    acc.ordering_fn = (fun a b => compare a b) →
    acc.root.WBST acc.prop_fn →
    ((pairs.foldl (fun a kv => (a.insert kv.1 kv.2).2) acc).root.WBST
      (pairs.foldl (fun a kv => (a.insert kv.1 kv.2).2) acc).prop_fn) := by
  induction pairs with
  | nil => intro acc _ hw; exact hw
  | cons q rest ih =>
    intro acc hord hw
    simp only [List.foldl_cons]
    apply ih
    · exact (TravlMap.insert_config acc q.1 q.2).2.1.trans hord
    · exact TravlMap.insert_WBST acc q.1 q.2 hord hw

/-- Under the search-ordering invariant, the in-order desired values are
non-decreasing. -/
theorem OptNode.WBST_pairwise [LinearOrder P] (prop : V → P) (o : OptNode K V) :
    o.WBST prop → (o.entries.map (fun kv => prop kv.2)).Pairwise (· ≤ ·) := by
  induction o using OptNode.inductionOn with
  | hnone => intro _; simp [OptNode.entries]
  | hmk k v h p l r ihl ihr =>
    intro hw
    obtain ⟨h1, h2, h3, h4⟩ := hw
    simp only [OptNode.entries, TravlNode.entries, List.map_append,
      List.map_cons]
    rw [List.pairwise_append]
    refine ⟨ihl h3, ?_, ?_⟩
    · rw [List.pairwise_cons]
      refine ⟨?_, ihr h4⟩
      intro b hb
      obtain ⟨kvb, hkvb, hbe⟩ := List.mem_map.mp hb
      exact hbe ▸ h2 kvb hkvb
    · intro a ha b hb
      obtain ⟨kva, hkva, hae⟩ := List.mem_map.mp ha
      rcases List.mem_cons.mp hb with hb2 | hb2
      · rw [hb2]; exact hae ▸ h1 kva hkva
      · obtain ⟨kvb, hkvb, hbe⟩ := List.mem_map.mp hb2
        exact hae ▸ hbe ▸ le_trans (h1 kva hkva) (h2 kvb hkvb)

/-- C1 (amended): when neither threshold computation saturates `u64`
(`right_height + t + 1` and `left_height + t + 1` both fit), the
classification returns `TooLeftHeavy` precisely when
`right_height + t + 1 == left_height` and `TooRightHeavy` precisely when
`left_height + t + 1 == right_height` — exact equality, not
greater-or-equal. -/
theorem C1_exact_equality_thresholds (n : TravlNode K V) (t : Nat)
    (hl : n.left.heightD + t + 1 ≤ U64MAX)
    (hr : n.right.heightD + t + 1 ≤ U64MAX) :
    (n.balance_factor t = .TooLeftHeavy ↔
      n.right.heightD + t + 1 = n.left.heightD) ∧
    (n.balance_factor t = .TooRightHeavy ↔
      n.left.heightD + t + 1 = n.right.heightD) := by
  have ht : satAdd t 1 = t + 1 := satAdd_of_le (by omega)
  have h2 : satAdd n.right.heightD (t + 1) = n.right.heightD + (t + 1) :=
    satAdd_of_le (by omega)
  have h3 : satAdd n.left.heightD (t + 1) = n.left.heightD + (t + 1) :=
    satAdd_of_le (by omega)
  simp only [TravlNode.balance_factor]
  rw [ht, h2, h3]
  split_ifs with hc1 hc2
  · exact ⟨⟨fun _ => by omega, fun _ => rfl⟩,
      ⟨fun h => absurd h (by decide), fun h => ((by omega : False)).elim⟩⟩
  · exact ⟨⟨fun h => absurd h (by decide), fun h => (hc1 (by omega)).elim⟩,
      ⟨fun _ => by omega, fun _ => rfl⟩⟩
  · cases hcc : compare n.left.heightD n.right.heightD <;>
      simp only [hcc] <;>
      exact ⟨⟨fun h => absurd h (by decide), fun h => (hc1 (by omega)).elim⟩,
        ⟨fun h => absurd h (by decide), fun h => (hc2 (by omega)).elim⟩⟩

/-- Witness for C1 at a concrete node (left child of height 1, no right
child, tolerance 0). -/
theorem C1_exact_equality_thresholds_witness :
    (c1SmallNode.left.heightD + 0 + 1 ≤ U64MAX ∧
     c1SmallNode.right.heightD + 0 + 1 ≤ U64MAX) ∧
    ((c1SmallNode.balance_factor 0 = .TooLeftHeavy ↔
       c1SmallNode.right.heightD + 0 + 1 = c1SmallNode.left.heightD) ∧
     (c1SmallNode.balance_factor 0 = .TooRightHeavy ↔
       c1SmallNode.left.heightD + 0 + 1 = c1SmallNode.right.heightD)) :=
  ⟨⟨by decide, by decide⟩,
    C1_exact_equality_thresholds c1SmallNode 0 (by decide) (by decide)⟩

/-- C1 counterexample: at saturating inputs the exact-equality reading fails.
For a node with a left child of height `u64::MAX`, no right child, and
tolerance `u64::MAX`, the code classifies `TooLeftHeavy` although
`right_height + t + 1 = u64::MAX + 1` does not equal
`left_height = u64::MAX`. -/
theorem C1_counterexample :
    c1Node.balance_factor U64MAX = .TooLeftHeavy ∧
    c1Node.right.heightD + U64MAX + 1 ≠ c1Node.left.heightD :=
  ⟨by decide, by decide⟩

/-- C2: the balance classification reads an absent child as height 0, and
when it is not a too-heavy classification it is `Balanced` exactly on equal
heights, `LeftHeavy` exactly when the left height is larger, `RightHeavy`
exactly when the right height is larger. -/
theorem C2_classification (n : TravlNode K V) (t : Nat)
    (h1 : n.balance_factor t ≠ .TooLeftHeavy)
    (h2 : n.balance_factor t ≠ .TooRightHeavy) :
    ((n.left = .none → n.left.heightD = 0) ∧
     (n.right = .none → n.right.heightD = 0)) ∧
    (n.balance_factor t = .Balanced ↔ n.left.heightD = n.right.heightD) ∧
    (n.balance_factor t = .LeftHeavy ↔ n.right.heightD < n.left.heightD) ∧
    (n.balance_factor t = .RightHeavy ↔ n.left.heightD < n.right.heightD) := by
  refine ⟨⟨fun h => by rw [h]; rfl, fun h => by rw [h]; rfl⟩, ?_⟩
  simp only [TravlNode.balance_factor] at h1 h2 ⊢
  split_ifs at h1 h2 ⊢ with hc1 hc2
  · exact absurd rfl h1
  · exact absurd rfl h2
  · cases hcc : compare n.left.heightD n.right.heightD <;> simp only [hcc]
    · have hlt := compare_lt_iff_lt.mp hcc
      exact ⟨⟨fun h => absurd h (by decide), fun h => absurd h (by omega)⟩,
        ⟨fun h => absurd h (by decide), fun h => absurd h (by omega)⟩,
        ⟨fun _ => hlt, fun _ => trivial⟩⟩
    · have heq := compare_eq_iff_eq.mp hcc
      exact ⟨⟨fun _ => heq, fun _ => trivial⟩,
        ⟨fun h => absurd h (by decide), fun h => absurd h (by omega)⟩,
        ⟨fun h => absurd h (by decide), fun h => absurd h (by omega)⟩⟩
    · have hgt := compare_gt_iff_gt.mp hcc
      exact ⟨⟨fun h => absurd h (by decide), fun h => absurd h (by omega)⟩,
        ⟨fun _ => hgt, fun _ => trivial⟩,
        ⟨fun h => absurd h (by decide), fun h => absurd h (by omega)⟩⟩

/-- Witness for C2 at a concrete node (leaf left child, height-2 right
child, tolerance 0; the classification is `RightHeavy`). -/
theorem C2_classification_witness :
    (c2Node.balance_factor 0 ≠ .TooLeftHeavy ∧
     c2Node.balance_factor 0 ≠ .TooRightHeavy) ∧
    (((c2Node.left = .none → c2Node.left.heightD = 0) ∧
      (c2Node.right = .none → c2Node.right.heightD = 0)) ∧
     (c2Node.balance_factor 0 = .Balanced ↔
       c2Node.left.heightD = c2Node.right.heightD) ∧
     (c2Node.balance_factor 0 = .LeftHeavy ↔
       c2Node.right.heightD < c2Node.left.heightD) ∧
     (c2Node.balance_factor 0 = .RightHeavy ↔
       c2Node.left.heightD < c2Node.right.heightD)) :=
  ⟨⟨by decide, by decide⟩, C2_classification c2Node 0 (by decide) (by decide)⟩

/-- C9: a node freshly created by `TravlNode::new(k, v)` carries exactly the
key and value it was given, has height 0 and no parent or child links, and
the derived predicates agree. -/
theorem C9_new_node (k : K) (v : V) :
    (TravlNode.new k v).key = k ∧ (TravlNode.new k v).value = v ∧
    (TravlNode.new k v).height = 0 ∧ (TravlNode.new k v).parent = .none ∧
    (TravlNode.new k v).left = .none ∧ (TravlNode.new k v).right = .none ∧
    (TravlNode.new k v).is_leaf = true ∧ (TravlNode.new k v).is_alone = true ∧
    (TravlNode.new k v).has_parent = false ∧
    (TravlNode.new k v).is_internal = false :=
  ⟨rfl, rfl, rfl, rfl, rfl, rfl, rfl, rfl, rfl, rfl⟩

/-- C3 (code bug): inserting the four pairwise-distinct keys 1, 2, 3, 4
(values equal to keys) into a freshly constructed natural-ordered map (its
imbalance tolerance is 0) yields a map of four nodes in which a node — in
fact the root — is classified `TooLeftHeavy`, violating the claimed
invariant.  The classification (src/core.rs) flags a height difference of
exactly `tolerance + 1` as too heavy while counting an absent child as
height 0, so every four-node tree has a too-heavy node and the invariant is
unsatisfiable from the fourth insert on. -/
theorem C3_balance_invariant_fails :
    c3Map.len = 4 ∧
    c3Map.nodes.any
      (fun kv => kv.2.balance_factor c3Map.imbalance_factor == .TooLeftHeavy)
      = true :=
  ⟨by decide, by decide⟩

/-- C4 counterexample: on the map with property getter `v / 2` holding value
2 under key 1, `insert(2, 3)` succeeds (3 also has desired value 1), yet
`find` with `Equality` on `prop_fn(3) = 1` returns the node holding value 2,
not a node whose value is 3. -/
theorem C4_counterexample :
    (c4Map.insert 2 3).1 = .ok () ∧
    ((c4Map.insert 2 3).2.find ((c4Map.insert 2 3).2.prop_fn 3)
      .Equality).map TravlNode.value = Option.some 2 ∧
    ((c4Map.insert 2 3).2.find ((c4Map.insert 2 3).2.prop_fn 3)
      .Equality).map TravlNode.value ≠ Option.some 3 :=
  ⟨rfl, by decide, by decide⟩

/-- C4 (amended): for a map whose ordering function is the comparison of a
linear order and whose tree satisfies the search-ordering invariant, `find`
with `Equality` returns only nodes of the map whose desired value compares
`Equal` to the pivot and returns empty when no entry's desired value compares
`Equal`; and after `insert(k, v)` succeeds, provided no already-stored value
shares `v`'s desired value, `find(prop_fn(v), Equality)` returns a node whose
value is `v`. -/
theorem C4_find_equality [DecidableEq K] [LinearOrder P] (m : TravlMap K V P)
    (pv : P) (k : K) (v : V)
    (hord : m.ordering_fn = fun a b => compare a b)
    (hw : m.root.WBST m.prop_fn)
    (hk : m.contains_key k = false)
    (hfree : ∀ kv ∈ m.root.entries, m.prop_fn kv.2 ≠ m.prop_fn v) :
    (∀ n, m.find pv .Equality = Option.some n →
      (n.key, n.value) ∈ m.root.entries ∧
      m.ordering_fn (m.prop_fn n.value) pv = .eq) ∧
    ((∀ kv ∈ m.root.entries, m.ordering_fn (m.prop_fn kv.2) pv ≠ .eq) →
      m.find pv .Equality = Option.none) ∧
    (∃ n, (m.insert k v).2.find ((m.insert k v).2.prop_fn v) .Equality
        = Option.some n ∧ n.value = v) := by
  refine ⟨?_, ?_, ?_⟩
  · intro n hn
    exact OptNode.find_walk_sound m.prop_fn m.ordering_fn pv m.root n hn
  · intro hno
    cases hf : m.find pv .Equality with
    | none => rfl
    | some n =>
      obtain ⟨hmem, heq⟩ := OptNode.find_walk_sound m.prop_fn m.ordering_fn pv
        m.root n hf
      exact absurd heq (hno (n.key, n.value) hmem)
  · have hcfg := TravlMap.insert_config m k v
    have hperm := (TravlMap.insert_entries m k v hk).2
    have hw2 : (m.insert k v).2.root.WBST (m.insert k v).2.prop_fn :=
      TravlMap.insert_WBST m k v hord hw
    have hmem : (k, v) ∈ (m.insert k v).2.root.entries :=
      hperm.mem_iff.mpr (List.mem_cons_self _ _)
    obtain ⟨n, hfind, hpn⟩ :=
      OptNode.find_walk_complete (m.insert k v).2.prop_fn
        ((m.insert k v).2.prop_fn v) (m.insert k v).2.root hw2 (k, v) hmem rfl
    refine ⟨n, ?_, ?_⟩
    · show (m.insert k v).2.root.find_walk (m.insert k v).2.prop_fn
        (m.insert k v).2.ordering_fn ((m.insert k v).2.prop_fn v)
        = Option.some n
      rw [hcfg.2.1, hord]
      exact hfind
    · obtain ⟨hnmem, _⟩ := OptNode.find_walk_sound (m.insert k v).2.prop_fn
        (fun a b => compare a b) ((m.insert k v).2.prop_fn v)
        (m.insert k v).2.root n hfind
      rcases List.mem_cons.mp (hperm.mem_iff.mp hnmem) with he | he
      · exact congrArg Prod.snd he
      · exfalso
        have hne := hfree (n.key, n.value) he
        rw [hcfg.1] at hpn
        exact hne hpn

/-- Witness for C4 at a concrete input: the fresh natural-ordered empty map,
inserting key 1 with value 5, pivot 0. -/
theorem C4_find_equality_witness :
    ((exEmptyMap.ordering_fn = fun a b => compare a b) ∧
     exEmptyMap.root.WBST exEmptyMap.prop_fn ∧
     exEmptyMap.contains_key 1 = false ∧
     (∀ kv ∈ exEmptyMap.root.entries,
       exEmptyMap.prop_fn kv.2 ≠ exEmptyMap.prop_fn 5)) ∧
    ((∀ n, exEmptyMap.find 0 .Equality = Option.some n →
      (n.key, n.value) ∈ exEmptyMap.root.entries ∧
      exEmptyMap.ordering_fn (exEmptyMap.prop_fn n.value) 0 = .eq) ∧
    ((∀ kv ∈ exEmptyMap.root.entries,
        exEmptyMap.ordering_fn (exEmptyMap.prop_fn kv.2) 0 ≠ .eq) →
      exEmptyMap.find 0 .Equality = Option.none) ∧
    (∃ n, (exEmptyMap.insert 1 5).2.find ((exEmptyMap.insert 1 5).2.prop_fn 5)
        .Equality = Option.some n ∧ n.value = 5)) :=
  ⟨⟨rfl, trivial, by decide, fun kv hkv => absurd hkv (by
      simp [exEmptyMap, TravlMap.new, TravlMap.default, OptNode.entries])⟩,
    C4_find_equality exEmptyMap 0 1 5 rfl trivial (by decide)
      (fun kv hkv => absurd hkv (by
        simp [exEmptyMap, TravlMap.new, TravlMap.default, OptNode.entries]))⟩

/-- C5: `replace_prop_fn` and `replace_ordering_fn` install the new function
and perform the full reorder; for a map with unique keys (the spec section 3
invariant) and a lawful ordering, the reordered map holds exactly the same
`(key, value)` pairs, with in-order desired values non-decreasing under the
new configuration. -/
theorem C5_replace_reorders [DecidableEq K] [LinearOrder P]
    (m : TravlMap K V P) (f : V → P) (g : P → P → Ordering)
    (hnd : (m.root.entries.map Prod.fst).Nodup)
    (hord : m.ordering_fn = fun a b => compare a b)
    (hg : g = fun a b => compare a b) :
    List.Perm (m.replace_prop_fn f).root.entries m.root.entries ∧
    ((m.replace_prop_fn f).root.entries.map (fun kv => f kv.2)).Pairwise
      (· ≤ ·) ∧
    List.Perm (m.replace_ordering_fn g).root.entries m.root.entries ∧
    ((m.replace_ordering_fn g).root.entries.map
      (fun kv => m.prop_fn kv.2)).Pairwise (· ≤ ·) := by
  refine ⟨?_, ?_, ?_, ?_⟩
  · have h := TravlMap.fold_insert_entries (P := P) m.root.entries
      { m with prop_fn := f, root := .none } hnd (fun q hq => rfl)
    simpa [TravlMap.replace_prop_fn, TravlMap.reorder, OptNode.entries]
      using h
  · have hw := TravlMap.fold_insert_WBST (P := P) m.root.entries
      { m with prop_fn := f, root := .none } hord trivial
    have hcf := TravlMap.fold_insert_config (P := P) m.root.entries
      { m with prop_fn := f, root := .none }
    rw [hcf.1] at hw
    have hpw := OptNode.WBST_pairwise f _ hw
    simpa [TravlMap.replace_prop_fn, TravlMap.reorder] using hpw
  · have h := TravlMap.fold_insert_entries (P := P) m.root.entries
      { m with ordering_fn := g, root := .none } hnd (fun q hq => rfl)
    simpa [TravlMap.replace_ordering_fn, TravlMap.reorder, OptNode.entries]
      using h
  · have hw := TravlMap.fold_insert_WBST (P := P) m.root.entries
      { m with ordering_fn := g, root := .none } hg trivial
    have hcf := TravlMap.fold_insert_config (P := P) m.root.entries
      { m with ordering_fn := g, root := .none }
    rw [hcf.1] at hw
    have hpw := OptNode.WBST_pairwise m.prop_fn _ hw
    simpa [TravlMap.replace_ordering_fn, TravlMap.reorder] using hpw

/-- Witness for C5 on a concrete two-entry map, a reversing property getter
and the natural comparison. -/
theorem C5_replace_reorders_witness :
    ((c5Map.root.entries.map Prod.fst).Nodup ∧
     (c5Map.ordering_fn = fun a b => compare a b) ∧
     ((fun a b => compare a b) = fun a b : Nat => compare a b)) ∧
    (List.Perm (c5Map.replace_prop_fn (fun v => 100 - v)).root.entries
      c5Map.root.entries ∧
    ((c5Map.replace_prop_fn (fun v => 100 - v)).root.entries.map
      (fun kv => 100 - kv.2)).Pairwise (· ≤ ·) ∧
    List.Perm
      (c5Map.replace_ordering_fn (fun a b => compare a b)).root.entries
      c5Map.root.entries ∧
    ((c5Map.replace_ordering_fn (fun a b => compare a b)).root.entries.map
      (fun kv => c5Map.prop_fn kv.2)).Pairwise (· ≤ ·)) :=
  ⟨⟨by decide,
    (TravlMap.insert_config (exEmptyMap.insert 1 10).2 2 20).2.1.trans
      (TravlMap.insert_config exEmptyMap 1 10).2.1, rfl⟩,
    C5_replace_reorders c5Map (fun v => 100 - v) (fun a b => compare a b)
      (by decide)
      ((TravlMap.insert_config (exEmptyMap.insert 1 10).2 2 20).2.1.trans
        (TravlMap.insert_config exEmptyMap 1 10).2.1) rfl⟩

/-- C6: inserting an already-present key fails with `DuplicateKey` and leaves
the map unchanged; an insert succeeds exactly when the key is not already
present. -/
theorem C6_duplicate_key [DecidableEq K] (m : TravlMap K V P) (k : K)
    (v : V) :
    (m.contains_key k = true → m.insert k v = (.error .DuplicateKey, m)) ∧
    ((m.insert k v).1 = .ok () ↔ m.contains_key k = false) := by
  constructor
  · intro h
    unfold TravlMap.insert
    rw [if_pos h]
  · unfold TravlMap.insert
    cases hc : m.contains_key k <;> simp [hc]

/-- Witness for C6 on a concrete one-entry map (key 1 present, key 2
absent). -/
theorem C6_duplicate_key_witness :
    (c6Map.contains_key 1 = true) ∧
    (c6Map.insert 1 99 = (.error .DuplicateKey, c6Map)) ∧
    ((c6Map.insert 2 5).1 = .ok () ↔ c6Map.contains_key 2 = false) :=
  ⟨by decide, (C6_duplicate_key c6Map 1 99).1 (by decide),
    (C6_duplicate_key c6Map 2 5).2⟩

/-- C7: all construction variants produce a map with imbalance factor 0, an
empty node index and no root key, hence empty and of length 0. -/
theorem C7_constructors (K V P : Type) [LinearOrder V] [LinearOrder P]
    (ordv : V → V → Ordering) (propf : V → P) (ordp : P → P → Ordering) :
    ((TravlMap.new K V).imbalance_factor = 0 ∧ (TravlMap.new K V).nodes = [] ∧
     (TravlMap.new K V).root_key = Option.none ∧
     (TravlMap.new K V).is_empty = true ∧ (TravlMap.new K V).len = 0) ∧
    ((TravlMap.default K V).imbalance_factor = 0 ∧
     (TravlMap.default K V).nodes = [] ∧
     (TravlMap.default K V).root_key = Option.none ∧
     (TravlMap.default K V).is_empty = true ∧ (TravlMap.default K V).len = 0) ∧
    ((TravlMap.new_with_ordering K ordv).imbalance_factor = 0 ∧
     (TravlMap.new_with_ordering K ordv).nodes = [] ∧
     (TravlMap.new_with_ordering K ordv).root_key = Option.none ∧
     (TravlMap.new_with_ordering K ordv).is_empty = true ∧
     (TravlMap.new_with_ordering K ordv).len = 0) ∧
    ((TravlMap.new_with_prop_getter K propf).imbalance_factor = 0 ∧
     (TravlMap.new_with_prop_getter K propf).nodes = [] ∧
     (TravlMap.new_with_prop_getter K propf).root_key = Option.none ∧
     (TravlMap.new_with_prop_getter K propf).is_empty = true ∧
     (TravlMap.new_with_prop_getter K propf).len = 0) ∧
    ((TravlMap.new_with_prop_getter_and_ordering K propf ordp).imbalance_factor
        = 0 ∧
     (TravlMap.new_with_prop_getter_and_ordering K propf ordp).nodes = [] ∧
     (TravlMap.new_with_prop_getter_and_ordering K propf ordp).root_key
        = Option.none ∧
     (TravlMap.new_with_prop_getter_and_ordering K propf ordp).is_empty
        = true ∧
     (TravlMap.new_with_prop_getter_and_ordering K propf ordp).len = 0) :=
  ⟨⟨rfl, rfl, rfl, rfl, rfl⟩, ⟨rfl, rfl, rfl, rfl, rfl⟩,
    ⟨rfl, rfl, rfl, rfl, rfl⟩, ⟨rfl, rfl, rfl, rfl, rfl⟩,
    ⟨rfl, rfl, rfl, rfl, rfl⟩⟩

/-- C8: a lookup miss yields an empty result: `contains_key` is true exactly
when `get` hits, `get` and `get_mut` hit exactly when the key is in the
index, and they miss (return `none`) otherwise. -/
theorem C8_lookup_by_key [DecidableEq K] (m : TravlMap K V P) (k : K) :
    (m.contains_key k = true ↔ (m.get k).isSome = true) ∧
    ((m.get k).isSome = true ↔ k ∈ m.nodes.map Prod.fst) ∧
    (m.get k = Option.none ↔ ¬k ∈ m.nodes.map Prod.fst) ∧
    m.get_mut k = m.get k := by
  refine ⟨?_, TravlMap.get_isSome_iff m k, ?_, rfl⟩
  · rw [TravlMap.contains_key_iff_mem, TravlMap.get_isSome_iff]
  · rw [← TravlMap.get_isSome_iff m k]
    cases m.get k <;> simp

/-- C10: `link_children` overwrites a child slot only when the corresponding
argument is `Some` — a `None` argument leaves the slot untouched and reports
`None` (not the previous child) as that slot's old value — and every
link/unlink operation preserves the node's key, value and height, modifying
only its own link slots. -/
theorem C10_link_ops (n p : TravlNode K V) (c : OptNode K V × OptNode K V) :
    ((n.link_children (.none, c.2)).1.1 = .none ∧
     (n.link_children (.none, c.2)).2.left = n.left ∧
     (n.link_children (c.1, .none)).1.2 = .none ∧
     (n.link_children (c.1, .none)).2.right = n.right) ∧
    ((n.link_parent p).2.key = n.key ∧ (n.link_parent p).2.value = n.value ∧
     (n.link_parent p).2.height = n.height ∧ (n.link_parent p).2.left = n.left ∧
     (n.link_parent p).2.right = n.right) ∧
    (n.unlink_parent.2.key = n.key ∧ n.unlink_parent.2.value = n.value ∧
     n.unlink_parent.2.height = n.height ∧ n.unlink_parent.2.left = n.left ∧
     n.unlink_parent.2.right = n.right) ∧
    ((n.link_left p).2.key = n.key ∧ (n.link_left p).2.value = n.value ∧
     (n.link_left p).2.height = n.height ∧
     (n.link_left p).2.parent = n.parent ∧ (n.link_left p).2.right = n.right) ∧
    (n.unlink_left.2.key = n.key ∧ n.unlink_left.2.value = n.value ∧
     n.unlink_left.2.height = n.height ∧ n.unlink_left.2.parent = n.parent ∧
     n.unlink_left.2.right = n.right) ∧
    ((n.link_right p).2.key = n.key ∧ (n.link_right p).2.value = n.value ∧
     (n.link_right p).2.height = n.height ∧
     (n.link_right p).2.parent = n.parent ∧ (n.link_right p).2.left = n.left) ∧
    (n.unlink_right.2.key = n.key ∧ n.unlink_right.2.value = n.value ∧
     n.unlink_right.2.height = n.height ∧ n.unlink_right.2.parent = n.parent ∧
     n.unlink_right.2.left = n.left) ∧
    ((n.link_children c).2.key = n.key ∧ (n.link_children c).2.value = n.value ∧
     (n.link_children c).2.height = n.height ∧
     (n.link_children c).2.parent = n.parent) ∧
    (n.unlink_children.2.key = n.key ∧ n.unlink_children.2.value = n.value ∧
     n.unlink_children.2.height = n.height ∧
     n.unlink_children.2.parent = n.parent) := by
  obtain ⟨cl, cr⟩ := c
  cases n
  exact ⟨⟨rfl, rfl, rfl, rfl⟩, ⟨rfl, rfl, rfl, rfl, rfl⟩,
    ⟨rfl, rfl, rfl, rfl, rfl⟩, ⟨rfl, rfl, rfl, rfl, rfl⟩,
    ⟨rfl, rfl, rfl, rfl, rfl⟩, ⟨rfl, rfl, rfl, rfl, rfl⟩,
    ⟨rfl, rfl, rfl, rfl, rfl⟩, ⟨rfl, rfl, rfl, rfl⟩, ⟨rfl, rfl, rfl, rfl⟩⟩

end Travl
